import Mathlib

/-!
# Verification of the `sfv` structured-field-values codec

This development is a shallow embedding of the Go package `sfv`
(RFC 9651 structured field values codec): the recursive-descent parser of
`sfv.go` and the canonical marshalers of `numeric.go`, `string.go`,
`boolean.go`, `date.go`, `byte_sequence.go`, the token/display-string/
parameters/list/dictionary marshalers, and the encoder's parameter-spacing
post-processing.

Modelling conventions:

* A Go byte string (`[]byte`) is a `List Nat`, each element a byte value.
* The index-based `parseContext` is modelled by passing the remaining
  input suffix; a sub-parser returns `Option (result × rest)`, `none`
  standing for a Go `error` return.
* The Go loops of the structural parsers (`parseList`, `parseDictionary`,
  `parseParameters`, `parseInnerList`) terminate because every iteration
  consumes at least one byte; the model makes this explicit with a fuel
  parameter that the entry point instantiates with `input.length + 1`,
  which strictly exceeds the possible number of iterations.
* `float64` decimals: the wire grammar only admits decimals with at most
  12 integer digits and at most 3 fractional digits.  Every such value
  `d` has `|d| < 10^13`, so the nearest `float64` to `d` is within half
  an ulp (`< 5·10^-4`) of `d`, and Go's
  `strconv.FormatFloat(v, 'f', 3, 64)` recovers exactly the 3-fractional-
  digit decimal `d` from it.  The model therefore represents a parsed
  decimal exactly, as a sign flag and a magnitude in thousandths
  (`float64` keeps the sign of `-0.0`, hence the separate flag).
-/

/-- Byte strings are lists of byte values. -/
abbrev Bytes := List Nat

/-- ASCII bytes of a Lean string literal; used only to write concrete test
vectors legibly.  All vectors in this file are ASCII. -/
def bytesOfString (s : String) : Bytes :=
  s.data.map Char.toNat

/-- Model of `unicode.IsSpace(rune(b))` for a byte `b` (`parseContext.stripWhitespace`):
the Latin-1 range whitespace runes are TAB, LF, VT, FF, CR, SP, NEL (0x85)
and NBSP (0xA0). -/
def isSpaceByte (c : Nat) : Bool :=
  c = 9 || c = 10 || c = 11 || c = 12 || c = 13 || c = 32 || c = 0x85 || c = 0xA0

/-- Model of `parseContext.stripWhitespace`. -/
def stripWhitespace (input : Bytes) : Bytes :=
  input.dropWhile isSpaceByte

/-- Model of `isDigit` of `sfv.go`. -/
def isDigit (c : Nat) : Bool := 48 ≤ c && c ≤ 57

/-- Model of `isAlpha` of `sfv.go`. -/
def isAlpha (c : Nat) : Bool := (97 ≤ c && c ≤ 122) || (65 ≤ c && c ≤ 90)

/-- Model of `isLowerAlpha` of `sfv.go`. -/
def isLowerAlpha (c : Nat) : Bool := 97 ≤ c && c ≤ 122

/-! ## The value model

`BareItem` is the closed union of the eight bare value kinds.  A decimal
is a sign flag plus a magnitude in thousandths (see the header comment).
A string/token/display-string payload is the stored Go string's bytes. -/

inductive BareItem where
  | integer (v : Int)
  | decimal (neg : Bool) (mag : Nat)
  | str (s : Bytes)
  | token (s : Bytes)
  | byteSeq (b : Bytes)
  | boolean (b : Bool)
  | date (v : Int)
  | displayStr (s : Bytes)
  deriving DecidableEq, Repr

/-- Model of `Parameters`: the Go struct keeps an insertion-ordered `keys` slice and
a `Values` map, where `Set`/the parser append a key only on first
occurrence and always overwrite the map entry.  Iterating `keys` and
looking each key up in `Values` is observably an association list whose
`set` replaces in place; the model uses that association list. -/
abbrev Params := List (Bytes × BareItem)

/-- The parameter-insertion step shared by `parseContext.parseParameters`
and `Parameters.Set`: a new key is appended, an existing key keeps its
position and gets the new value. -/
def paramsSet (p : Params) (k : Bytes) (v : BareItem) : Params :=
  if (p.map Prod.fst).contains k then
    p.map fun kv => if kv.1 = k then (k, v) else kv
  else
    p ++ [(k, v)]

/-- Model of `fullItem`: a bare item plus parameters (`Item` interface). -/
structure Item where
  bare : BareItem
  params : Params
  deriving DecidableEq, Repr

/-- Model of `InnerList`: items plus the inner list's own parameters. -/
structure InnerList where
  values : List Item
  params : Params
  deriving DecidableEq, Repr

/-- A member of a top-level `List` (`any` holding `Item` or `*InnerList`). -/
inductive Member where
  | item (i : Item)
  | inner (il : InnerList)
  deriving DecidableEq, Repr

/-- A `Dictionary` value (`any` holding `Item`, `*InnerList`, or the bare
`True()` boolean the parser stores for a valueless key). -/
inductive DictVal where
  | item (i : Item)
  | inner (il : InnerList)
  | bare (b : BareItem)
  deriving DecidableEq, Repr

/-- Model of `Dictionary`: the parser appends to `keys` on every occurrence of a key
(no deduplication) while the `values` map keeps the last value, so the
model stores both: the raw key list and the key-value map (an association
list updated in place). -/
structure Dict where
  keys : List Bytes
  values : List (Bytes × DictVal)
  deriving DecidableEq, Repr

/-- The map-update of `dict.values[key] = value`. -/
def alistSet (m : List (Bytes × DictVal)) (k : Bytes) (v : DictVal) :
    List (Bytes × DictVal) :=
  if (m.map Prod.fst).contains k then
    m.map fun kv => if kv.1 = k then (k, v) else kv
  else
    m ++ [(k, v)]

/-- Map lookup `dict.values[key]`. -/
def alistGet (m : List (Bytes × DictVal)) (k : Bytes) : Option DictVal :=
  (m.find? fun kv => kv.1 = k).map Prod.snd

/-- The two lines of `parseContext.parseDictionary` that store a member:
`dict.keys = append(dict.keys, key); dict.values[key] = value`. -/
def dictAdd (d : Dict) (k : Bytes) (v : DictVal) : Dict :=
  { keys := d.keys ++ [k], values := alistSet d.values k v }

/-- The result of the generic entry point `Parse` (`any` holding `*List`
or `*Dictionary`). -/
inductive TopValue where
  | list (l : List Member)
  | dict (d : Dict)
  deriving DecidableEq, Repr

/-! ## Leaf parsers -/

/-- Numeric value of a digit string (`strconv.Atoi` / the integer part of
`strconv.ParseFloat` on an all-digit string). -/
def natFromDigits (ds : Bytes) : Nat :=
  ds.foldl (fun a c => a * 10 + (c - 48)) 0

/-- Model of `parseContext.parseKey` step 3.1 character class: lcalpha, DIGIT,
`_`, `-`, `.`, `*`. -/
def isKeyChar (c : Nat) : Bool :=
  isLowerAlpha c || isDigit c || c = 95 || c = 45 || c = 46 || c = 42

/-- Model of `parseContext.parseKey` (RFC 9651 Section 4.2.3.3): first character
lcalpha or `*`, then the key character run. -/
def parseKey (input : Bytes) : Option (Bytes × Bytes) :=
  match input with
  | [] => none
  | c :: _ =>
    if !(isLowerAlpha c || c = 42) then none
    else
      let k := input.takeWhile isKeyChar
      if k = [] then none else some (k, input.dropWhile isKeyChar)

/-- The `tchar` set of `parseContext.parseToken`: ALPHA, DIGIT, and
`& * ` ^ : - $ ! # % . | + ' / ~ _`. -/
def isTokenChar (c : Nat) : Bool :=
  isAlpha c || isDigit c ||
    c = 38 || c = 42 || c = 96 || c = 94 || c = 58 || c = 45 || c = 36 ||
    c = 33 || c = 35 || c = 37 || c = 46 || c = 124 || c = 43 || c = 39 ||
    c = 47 || c = 126 || c = 95

/-- Model of `parseContext.parseToken` (RFC 9651 Section 4.2.6). -/
def parseToken (input : Bytes) : Option (BareItem × Bytes) :=
  match input with
  | [] => none
  | c :: _ =>
    if !(isAlpha c || c = 42) then none
    else
      let s := input.takeWhile isTokenChar
      if s = [] then none else some (.token s, input.dropWhile isTokenChar)

/-- The accumulation loop of `parseContext.parseString`: consume until an
unescaped `"`; `\` must be followed by `"` or `\`; other bytes must lie in
`0x20..0x7e`. -/
def parseStringLoop (acc : Bytes) : Bytes → Option (Bytes × Bytes)
  | [] => none
  | 92 :: rest =>
    match rest with
    | [] => none
    | n :: rest2 =>
      if n = 34 || n = 92 then parseStringLoop (acc ++ [n]) rest2 else none
  | 34 :: rest => some (acc, rest)
  | c :: rest =>
    if c ≤ 0x1f || 0x7f ≤ c then none else parseStringLoop (acc ++ [c]) rest

/-- Model of `parseContext.parseString` (RFC 9651 Section 4.2.5). -/
def parseString (input : Bytes) : Option (BareItem × Bytes) :=
  match input with
  | 34 :: rest => (parseStringLoop [] rest).map fun (s, r) => (.str s, r)
  | _ => none

/-- Valid base64 alphabet byte as filtered by `parseByteSequence`
(ALPHA, DIGIT, `+`, `/`, `=`). -/
def isBase64Char (c : Nat) : Bool :=
  isAlpha c || isDigit c || c = 43 || c = 47 || c = 61

/-- Symbol value of a standard base64 alphabet byte
(`encoding/base64.StdEncoding` decode map). -/
def base64SymVal (c : Nat) : Option Nat :=
  if 65 ≤ c ∧ c ≤ 90 then some (c - 65)
  else if 97 ≤ c ∧ c ≤ 122 then some (c - 97 + 26)
  else if 48 ≤ c ∧ c ≤ 57 then some (c - 48 + 52)
  else if c = 43 then some 62
  else if c = 47 then some 63
  else none

/-- Model of `base64.StdEncoding.DecodeString`: 4-symbol quanta, `=` padding only
in the final quantum (1 or 2 pad symbols), input length a multiple of 4.
Non-strict mode: unused trailing bits in the final quantum are ignored. -/
def base64Decode : Bytes → Option Bytes
  | [] => some []
  | a :: b :: c :: d :: rest =>
    match base64SymVal a, base64SymVal b with
    | some va, some vb =>
      if c = 61 then
        if d = 61 ∧ rest = [] then some [va * 4 + vb / 16] else none
      else
        match base64SymVal c with
        | some vc =>
          if d = 61 then
            if rest = [] then some [va * 4 + vb / 16, (vb % 16) * 16 + vc / 4]
            else none
          else
            match base64SymVal d with
            | some vd =>
              (base64Decode rest).map fun tl =>
                (va * 4 + vb / 16) :: ((vb % 16) * 16 + vc / 4) ::
                  ((vc % 4) * 64 + vd) :: tl
            | none => none
        | none => none
    | _, _ => none
  | _ => none

/-- The collection loop of `parseContext.parseByteSequence`: gather
alphabet bytes until the closing `:`. -/
def byteSeqLoop (acc : Bytes) : Bytes → Option (Bytes × Bytes)
  | [] => none
  | 58 :: rest => some (acc, rest)
  | c :: rest =>
    if isBase64Char c then byteSeqLoop (acc ++ [c]) rest else none

/-- Model of `parseContext.parseByteSequence` (RFC 9651 Section 4.2.7). -/
def parseByteSequence (input : Bytes) : Option (BareItem × Bytes) :=
  match input with
  | 58 :: rest =>
    match byteSeqLoop [] rest with
    | some (sym, r) => (base64Decode sym).map fun b => (.byteSeq b, r)
    | none => none
  | _ => none

/-- Model of `parseContext.parseBoolean` (RFC 9651 Section 4.2.8). -/
def parseBoolean (input : Bytes) : Option (BareItem × Bytes) :=
  match input with
  | 63 :: c :: rest =>
    if c = 49 then some (.boolean true, rest)
    else if c = 48 then some (.boolean false, rest)
    else none
  | _ => none

/-- The accumulation loop of `parseContext.parseDecimal` (the numeric
bare-value parser).  `sb` is the accumulated literal, `dec` the
`decimal` flag.  Returns the literal, the flag and the unconsumed rest;
`none` models the two in-loop errors (non-digit at the start, more than
12 accumulated digits when `.` is seen). -/
def numLoop (sb : Bytes) (dec : Bool) : Bytes → Option (Bytes × Bool × Bytes)
  | [] => some (sb, dec, [])
  | c :: rest =>
    if sb = [] ∧ ¬isDigit c then none
    else if c = 46 then
      if dec then some (sb, dec, 46 :: rest)
      else if sb.length > 12 then none
      else numLoop (sb ++ [46]) true rest
    else if ¬isDigit c then some (sb, dec, c :: rest)
    else numLoop (sb ++ [c]) dec rest

/-- The magnitude, in thousandths, of a decimal literal `sb` containing
one `.`: the value `strconv.ParseFloat` yields, which for these literals
is exactly `intpart + frac/10^(3)` scaled (see the header comment). -/
def decimalMagOf (sb : Bytes) : Nat :=
  let i := sb.indexOf 46
  let intPart := sb.take i
  let fracPart := sb.drop (i + 1)
  natFromDigits intPart * 1000 + natFromDigits fracPart * 10 ^ (3 - fracPart.length)

/-- The post-loop validation of `parseContext.parseDecimal`: decimal
literals of more than 16 characters, ending in `.`, or with more than 3
digits after the `.` fail; integer literals of more than 15 digits
fail. -/
def numFinish (neg : Bool) : Option (Bytes × Bool × Bytes) → Option (BareItem × Bytes)
  | none => none
  | some (sb, dec, rest) =>
    if dec then
      if sb.length > 16 then none
      else if sb.getLastD 0 = 46 then none
      else if sb.length - sb.indexOf 46 > 4 then none
      else some (.decimal neg (decimalMagOf sb), rest)
    else
      if sb.length > 15 then none
      else
        some (.integer (if neg then -(natFromDigits sb : Int) else natFromDigits sb), rest)

/-- Model of `parseContext.parseDecimal` assembled: sign, loop, post-loop checks. -/
def parseDecimal (input : Bytes) : Option (BareItem × Bytes) :=
  let neg : Bool := input.headD 0 = 45
  let afterSign := if neg then input.tail else input
  if afterSign = [] then none
  else numFinish neg (numLoop [] false afterSign)

/-- Model of `parseContext.parseDate` (RFC 9651 Section 4.2.9): `@` followed by a
numeric literal that must be an Integer. -/
def parseDate (input : Bytes) : Option (BareItem × Bytes) :=
  match input with
  | 64 :: rest =>
    match parseDecimal rest with
    | some (.integer v, r) => some (.date v, r)
    | some _ => none
    | none => none
  | _ => none

/-- Hex digit as accepted by `strconv.ParseUint(..., 16, 8)` in
`parseDisplayString` (both cases). -/
def isHexDigit (c : Nat) : Bool :=
  isDigit c || (97 ≤ c && c ≤ 102) || (65 ≤ c && c ≤ 70)

/-- Value of a hex digit byte. -/
def hexVal (c : Nat) : Nat :=
  if isDigit c then c - 48 else if 97 ≤ c then c - 87 else c - 55

/-- The accumulation loop of `parseContext.parseDisplayString`: bytes
outside `0x20..0x7e` are rejected, `%` introduces a two-hex-digit byte
escape, an unescaped `"` ends the string; the value is the raw
accumulated byte array. -/
def displayLoop (acc : Bytes) : Bytes → Option (Bytes × Bytes)
  | [] => none
  | c :: rest =>
    if c ≤ 0x1f || 0x7f ≤ c then none
    else if c = 37 then
      match rest with
      | h1 :: h2 :: rest2 =>
        if isHexDigit h1 ∧ isHexDigit h2 then
          displayLoop (acc ++ [hexVal h1 * 16 + hexVal h2]) rest2
        else none
      | _ => none
    else if c = 34 then some (acc, rest)
    else displayLoop (acc ++ [c]) rest

/-- Model of `parseContext.parseDisplayString` (RFC 9651 Section 4.2.10):
`%"` then the accumulation loop. -/
def parseDisplayString (input : Bytes) : Option (BareItem × Bytes) :=
  match input with
  | 37 :: 34 :: rest => (displayLoop [] rest).map fun (s, r) => (.displayStr s, r)
  | _ => none

/-- Model of `parseContext.parseBareItem`: strip whitespace, then dispatch on the
lead byte (`-`/digit numeric, `"` string, ALPHA/`*` token, `:` byte
sequence, `?` boolean, `@` date, `%` display string). -/
def parseBareItem (input : Bytes) : Option (BareItem × Bytes) :=
  let i := stripWhitespace input
  match i with
  | [] => none
  | c :: _ =>
    if c = 45 || isDigit c then parseDecimal i
    else if c = 34 then parseString i
    else if c = 42 || isAlpha c then parseToken i
    else if c = 58 then parseByteSequence i
    else if c = 63 then parseBoolean i
    else if c = 64 then parseDate i
    else if c = 37 then parseDisplayString i
    else none

/-! ## Structural parsers

Each Go parsing loop terminates because every iteration consumes at least
one byte of the remaining input (a `;` for parameters, one member/key for
the containers).  The model gives each loop a fuel parameter that its
wrapper instantiates with `input.length + 1`, strictly more than the
possible number of iterations, so the `fuel = 0` case is unreachable. -/

/-- The loop of `parseContext.parseParameters` (RFC 9651 Section 4.2.3.2):
while the next byte is `;`: consume it, skip spaces, parse a key, then an
optional `=`-prefixed bare item (default Boolean true), storing the pair
with the overwrite-in-place rule. -/
def paramsAux : Nat → Params → Bytes → Option (Params × Bytes)
  | 0, _, _ => none
  | fuel + 1, acc, input =>
    match input with
    | 59 :: r1 =>
      let r2 := stripWhitespace r1
      match parseKey r2 with
      | none => none
      | some (k, r3) =>
        match r3 with
        | 61 :: r4 =>
          match parseBareItem r4 with
          | none => none
          | some (v, r5) => paramsAux fuel (paramsSet acc k v) r5
        | _ => paramsAux fuel (paramsSet acc k (.boolean true)) r3
    | _ => some (acc, input)

/-- Model of `parseContext.parseParameters`. -/
def parseParameters (input : Bytes) : Option (Params × Bytes) :=
  paramsAux (input.length + 1) [] input

/-- Model of `parseContext.parseItem`: one bare item followed by its parameters
(`bareItem.ToItem().With(params)`). -/
def parseItem (input : Bytes) : Option (Item × Bytes) :=
  match parseBareItem input with
  | none => none
  | some (b, r) => (parseParameters r).map fun (ps, r2) => (⟨b, ps⟩, r2)

/-- The loop of `parseContext.parseInnerList`: strip spaces; `)` ends the
list and its parameters follow; otherwise parse an item, which must be
followed by a space or `)`; end of input before `)` is an error. -/
def innerAux : Nat → List Item → Bytes → Option (InnerList × Bytes)
  | 0, _, _ => none
  | fuel + 1, acc, input =>
    match input with
    | [] => none
    | _ =>
      let i := stripWhitespace input
      match i with
      | 41 :: r =>
        match parseParameters r with
        | none => none
        | some (ps, r2) => some (⟨acc, ps⟩, r2)
      | _ =>
        match parseItem i with
        | none => none
        | some (it, rest) =>
          match rest with
          | [] => none
          | c :: _ =>
            if ¬(isSpaceByte c ∨ c = 41) then none
            else innerAux fuel (acc ++ [it]) rest

/-- Model of `parseContext.parseInnerList`: strip spaces, require `(`, then the
loop. -/
def parseInnerList (input : Bytes) : Option (InnerList × Bytes) :=
  match stripWhitespace input with
  | 40 :: r => innerAux (r.length + 1) [] r
  | _ => none

/-- Outcome of the shared member-separator step of the `parseList` and
`parseDictionary` loops. -/
inductive SepResult where
  | done
  | next (rest : Bytes)
  | fail
  deriving DecidableEq, Repr

/-- The post-member step shared verbatim by the `parseList` and
`parseDictionary` loops: discard whitespace; end of input ends the
container; otherwise require a `,`, discard whitespace, and fail on a
trailing comma (end of input after the comma). -/
def memberSep (input : Bytes) : SepResult :=
  match stripWhitespace input with
  | [] => .done
  | c :: r =>
    if c ≠ 44 then .fail
    else
      match stripWhitespace r with
      | [] => .fail
      | r2 => .next r2

/-- The loop of `parseContext.parseList` (RFC 9651 Section 4.2.1): each
member is an inner list when the next byte is `(`, else an item. -/
def parseListAux : Nat → List Member → Bytes → Option (List Member × Bytes)
  | 0, _, _ => none
  | fuel + 1, acc, input =>
    match input with
    | [] => some (acc, [])
    | c :: _ =>
      let pm : Option (Member × Bytes) :=
        if c = 40 then (parseInnerList input).map fun (il, r) => (.inner il, r)
        else (parseItem input).map fun (it, r) => (.item it, r)
      match pm with
      | none => none
      | some (m, rest) =>
        match memberSep rest with
        | .done => some (acc ++ [m], [])
        | .next r2 => parseListAux fuel (acc ++ [m]) r2
        | .fail => none

/-- Model of `parseContext.parseList`. -/
def parseList (input : Bytes) : Option (List Member × Bytes) :=
  parseListAux (input.length + 1) [] input

/-- The loop of `parseContext.parseDictionary` (RFC 9651 Section 4.2.2):
a key, an optional `=`-prefixed member (default the bare Boolean true),
member parameters (upgrading a bare default to an item when non-empty;
for an already-parsed item Go calls `v.With(params)` and discards the
result, and an inner list is not in the `switch` at all, so both are
stored unchanged), then the shared separator step. -/
def parseDictAux : Nat → Dict → Bytes → Option (Dict × Bytes)
  | 0, _, _ => none
  | fuel + 1, d, input =>
    match input with
    | [] => some (d, [])
    | _ =>
      match parseKey input with
      | none => none
      | some (k, r1) =>
        let pv : Option (DictVal × Bytes) :=
          match r1 with
          | 61 :: r2 =>
            match r2 with
            | 40 :: _ => (parseInnerList r2).map fun (il, r) => (.inner il, r)
            | _ => (parseItem r2).map fun (it, r) => (.item it, r)
          | _ => some (.bare (.boolean true), r1)
        match pv with
        | none => none
        | some (v, r3) =>
          match parseParameters r3 with
          | none => none
          | some (ps, r4) =>
            let v' :=
              if ps ≠ [] then
                match v with
                | .bare b => DictVal.item ⟨b, ps⟩
                | x => x
              else v
            let d' := dictAdd d k v'
            match memberSep r4 with
            | .done => some (d', [])
            | .next r5 => parseDictAux fuel d' r5
            | .fail => none

/-- Model of `parseContext.parseDictionary`. -/
def parseDictionary (input : Bytes) : Option (Dict × Bytes) :=
  parseDictAux (input.length + 1) ⟨[], []⟩ input

/-- The token-skipping character class of `parseContext.isDictionary`
(alpha, digit, `_`, `-`, `.`, `:`, `/`, `*`). -/
def isDictScanChar (c : Nat) : Bool :=
  isAlpha c || isDigit c || c = 95 || c = 45 || c = 46 || c = 58 || c = 47 || c = 42

/-- Model of `parseContext.isDictionary`: under lookahead, a token-like key
followed (after spaces) by `=` selects dictionary parsing. -/
def isDictionary (input : Bytes) : Bool :=
  let i := stripWhitespace input
  match i with
  | [] => false
  | c :: _ =>
    if ¬(isAlpha c ∨ c = 42) then false
    else
      match stripWhitespace (i.dropWhile isDictScanChar) with
      | 61 :: _ => true
      | _ => false

/-- Model of `Parse` / `parseContext.do` in the default (auto-detect) mode:
strip leading whitespace, pick dictionary or list via `isDictionary`,
parse, strip trailing whitespace, and require end of input. -/
def Parse (input : Bytes) : Option TopValue :=
  let i := stripWhitespace input
  if isDictionary i then
    match parseDictionary i with
    | none => none
    | some (d, rest) =>
      if stripWhitespace rest = [] then some (.dict d) else none
  else
    match parseList i with
    | none => none
    | some (l, rest) =>
      if stripWhitespace rest = [] then some (.list l) else none

/-! ## Canonical encoder -/

/-- Decimal digit bytes of a natural number (`strconv.FormatInt` body).
Structural fuel keeps the definition kernel-reducible; 30 digits cover
every value representable in the codec (Go `int64` has at most 19). -/
def natDigitsAux : Nat → Nat → Bytes → Bytes
  | 0, n, acc => (48 + n % 10) :: acc
  | fuel + 1, n, acc =>
    if n < 10 then (48 + n) :: acc
    else natDigitsAux fuel (n / 10) ((48 + n % 10) :: acc)

/-- Decimal digit bytes of a natural number. -/
def natDigits (n : Nat) : Bytes := natDigitsAux 30 n []

/-- Model of `strconv.FormatInt(v, 10)`. -/
def intToBytes (v : Int) : Bytes :=
  if v < 0 then 45 :: natDigits v.natAbs else natDigits v.natAbs

/-- Go `utf8.DecodeRune` applied repeatedly (`for _, r := range s`):
each chunk is the decoded scalar (or `none` for an invalid byte, which
Go reports as `RuneError` with width 1) together with the consumed
bytes.  Every step consumes at least one byte, so structural fuel equal
to the input length makes the `fuel = 0` case unreachable. -/
def utf8ChunksAux : Nat → Bytes → List (Option Nat × Bytes)
  | 0, _ => []
  | _, [] => []
  | fuel + 1, b0 :: rest =>
    if b0 < 0x80 then (some b0, [b0]) :: utf8ChunksAux fuel rest
    else if 0xC2 ≤ b0 ∧ b0 ≤ 0xDF then
      match rest with
      | b1 :: rest2 =>
        if 0x80 ≤ b1 ∧ b1 ≤ 0xBF then
          (some ((b0 - 0xC0) * 64 + (b1 - 0x80)), [b0, b1]) :: utf8ChunksAux fuel rest2
        else (none, [b0]) :: utf8ChunksAux fuel rest
      | [] => [(none, [b0])]
    else if 0xE0 ≤ b0 ∧ b0 ≤ 0xEF then
      match rest with
      | b1 :: b2 :: rest3 =>
        if ((b0 = 0xE0 ∧ 0xA0 ≤ b1 ∧ b1 ≤ 0xBF) ∨
            (b0 = 0xED ∧ 0x80 ≤ b1 ∧ b1 ≤ 0x9F) ∨
            (b0 ≠ 0xE0 ∧ b0 ≠ 0xED ∧ 0x80 ≤ b1 ∧ b1 ≤ 0xBF)) ∧
           (0x80 ≤ b2 ∧ b2 ≤ 0xBF) then
          (some ((b0 - 0xE0) * 4096 + (b1 - 0x80) * 64 + (b2 - 0x80)), [b0, b1, b2]) ::
            utf8ChunksAux fuel rest3
        else (none, [b0]) :: utf8ChunksAux fuel rest
      | _ => (none, [b0]) :: utf8ChunksAux fuel rest
    else if 0xF0 ≤ b0 ∧ b0 ≤ 0xF4 then
      match rest with
      | b1 :: b2 :: b3 :: rest4 =>
        if ((b0 = 0xF0 ∧ 0x90 ≤ b1 ∧ b1 ≤ 0xBF) ∨
            (b0 = 0xF4 ∧ 0x80 ≤ b1 ∧ b1 ≤ 0x8F) ∨
            (b0 ≠ 0xF0 ∧ b0 ≠ 0xF4 ∧ 0x80 ≤ b1 ∧ b1 ≤ 0xBF)) ∧
           (0x80 ≤ b2 ∧ b2 ≤ 0xBF) ∧ (0x80 ≤ b3 ∧ b3 ≤ 0xBF) then
          (some ((b0 - 0xF0) * 262144 + (b1 - 0x80) * 4096 + (b2 - 0x80) * 64 + (b3 - 0x80)),
            [b0, b1, b2, b3]) :: utf8ChunksAux fuel rest4
        else (none, [b0]) :: utf8ChunksAux fuel rest
      | _ => (none, [b0]) :: utf8ChunksAux fuel rest
    else (none, [b0]) :: utf8ChunksAux fuel rest

/-- The rune chunks of a byte string (`for _, r := range s`). -/
def utf8Chunks (s : Bytes) : List (Option Nat × Bytes) :=
  utf8ChunksAux s.length s

/-- UTF-8 bytes of a scalar value (`utf8.AppendRune`; surrogates and
out-of-range values encode as `RuneError`, as in Go). -/
def utf8EncodeRune (r : Nat) : Bytes :=
  if r < 0x80 then [r]
  else if r < 0x800 then [0xC0 + r / 64, 0x80 + r % 64]
  else if 0xD800 ≤ r ∧ r ≤ 0xDFFF then [0xEF, 0xBF, 0xBD]
  else if r < 0x10000 then [0xE0 + r / 4096, 0x80 + r / 64 % 64, 0x80 + r % 64]
  else if r < 0x110000 then
    [0xF0 + r / 262144, 0x80 + r / 4096 % 64, 0x80 + r / 64 % 64, 0x80 + r % 64]
  else [0xEF, 0xBF, 0xBD]

/-- Lowercase hex digit byte. -/
def hexDigitLower (d : Nat) : Nat := if d < 10 then 48 + d else 87 + d

/-- The `\xHH` escape of `strconv.Quote` for a single byte. -/
def goEscapeByte (b : Nat) : Bytes :=
  [92, 120, hexDigitLower (b / 16), hexDigitLower (b % 16)]

/-- Model of `unicode.IsPrint` as used by `strconv.Quote`, modelled on the ASCII
range (`0x20..0x7e`).  For runes `≥ 0x80` Go consults its Unicode
tables; the codec's parser only ever produces strings with bytes in
`0x20..0x7e`, and no theorem below evaluates `quoteGo` outside that
range, so non-ASCII printability is conservatively `false` here. -/
def isPrintGo (r : Nat) : Bool := 32 ≤ r && r ≤ 126

/-- Four lowercase hex digit bytes (`\u%04x`). -/
def hex4 (r : Nat) : Bytes :=
  [hexDigitLower (r / 4096 % 16), hexDigitLower (r / 256 % 16),
   hexDigitLower (r / 16 % 16), hexDigitLower (r % 16)]

/-- Escaping of one valid rune inside `strconv.Quote`
(`appendEscapedRune`): `"` and `\` get a backslash, printable runes pass
through, the seven C escapes, then `\xHH`/`\uHHHH`/`\UHHHHHHHH`. -/
def quoteEscapeRune (r : Nat) : Bytes :=
  if r = 34 ∨ r = 92 then [92, r]
  else if isPrintGo r then utf8EncodeRune r
  else if r = 7 then [92, 97]
  else if r = 8 then [92, 98]
  else if r = 12 then [92, 102]
  else if r = 10 then [92, 110]
  else if r = 13 then [92, 114]
  else if r = 9 then [92, 116]
  else if r = 11 then [92, 118]
  else if r < 32 ∨ r = 127 then goEscapeByte r
  else if r < 0x10000 then [92, 117] ++ hex4 r
  else [92, 85] ++ hex4 (r / 65536) ++ hex4 r

/-- Model of `strconv.Quote` as used by `StringBareItem.MarshalSFV`: surround with
`"`, escape rune by rune; an invalid UTF-8 byte becomes `\xHH` of the raw
byte. -/
def quoteGo (s : Bytes) : Bytes :=
  34 :: ((utf8Chunks s).flatMap fun ch =>
    match ch.1 with
    | some r => quoteEscapeRune r
    | none => goEscapeByte (ch.2.headD 0)) ++ [34]

/-- Model of `%` + two lowercase hex digits (`fmt.Sprintf("%%%.2x", b)` in
`DisplayStringBareItem.MarshalSFV`). -/
def pctEncByte (b : Nat) : Bytes := [37, hexDigitLower (b / 16), hexDigitLower (b % 16)]

/-- Model of `DisplayStringBareItem.MarshalSFV`: `%"`, then per rune of the stored
string (invalid bytes decode to `RuneError` = `0xfffd`): a rune in
`0x20..0x7f` other than `%` passes through verbatim, every other rune's
UTF-8 bytes are percent-encoded; closing `"`.  Note the stored `"`
(0x22) satisfies the pass-through condition and is emitted verbatim. -/
def displayEncode (s : Bytes) : Bytes :=
  37 :: 34 :: ((utf8Chunks s).flatMap fun ch =>
    let r := (ch.1).getD 0xFFFD
    if r ≤ 127 ∧ 32 ≤ r ∧ r ≠ 37 then [r]
    else (utf8EncodeRune r).flatMap pctEncByte) ++ [34]

/-- Standard base64 alphabet symbol (`encoding/base64.StdEncoding`). -/
def base64Sym (n : Nat) : Nat :=
  if n < 26 then 65 + n
  else if n < 52 then 97 + (n - 26)
  else if n < 62 then 48 + (n - 52)
  else if n = 62 then 43
  else 47

/-- Model of `base64.StdEncoding.EncodeToString`: 3-byte groups to 4 symbols, with
`=` padding for a 1- or 2-byte final group. -/
def base64Encode : Bytes → Bytes
  | [] => []
  | [x] => [base64Sym (x / 4), base64Sym (x % 4 * 16), 61, 61]
  | [x, y] => [base64Sym (x / 4), base64Sym (x % 4 * 16 + y / 16), base64Sym (y % 16 * 4), 61]
  | x :: y :: z :: rest =>
    base64Sym (x / 4) :: base64Sym (x % 4 * 16 + y / 16) ::
      base64Sym (y % 16 * 4 + z / 64) :: base64Sym (z % 64) :: base64Encode rest

/-- The three exactly-3-fractional-digit bytes of
`strconv.FormatFloat(v, 'f', 3, 64)` for the thousandths `k < 1000`. -/
def pad3 (k : Nat) : Bytes := [48 + k / 100, 48 + k / 10 % 10, 48 + k % 10]

/-- Model of `strconv.FormatFloat(v, 'f', 3, 64)` on the model decimal: sign,
integer digits, `.`, exactly three fractional digits (exact for the
codec's decimals, see the header comment; a negative sign flag prints
even for magnitude zero, as `float64 -0.0` does). -/
def formatFixed3 (neg : Bool) (mag : Nat) : Bytes :=
  (if neg then [45] else []) ++ natDigits (mag / 1000) ++ [46] ++ pad3 (mag % 1000)

/-- Model of `strings.TrimRight(str, "0")`. -/
def trimRightZeros (s : Bytes) : Bytes :=
  (s.reverse.dropWhile (· = 48)).reverse

/-- The restore step of `DecimalBareItem.MarshalSFV`: if the last
character is `.`, append a single `0`. -/
def restoreDotZero (str : Bytes) : Bytes :=
  if str.getLastD 0 = 46 then str ++ [48] else str

/-- Model of `DecimalBareItem.MarshalSFV`: format with exactly 3 fractional
digits, strip trailing zeros, and restore a single `0` if the last
character is then `.`. -/
def marshalDecimal (neg : Bool) (mag : Nat) : Bytes :=
  restoreDotZero (trimRightZeros (formatFixed3 neg mag))

/-- Model of `MarshalSFV` of each bare item kind (`IntegerBareItem`,
`DecimalBareItem`, `StringBareItem`, `TokenBareItem`,
`ByteSequenceBareItem`, `BooleanBareItem`, `DateBareItem`,
`DisplayStringBareItem`). -/
def BareItem.marshalSFV : BareItem → Bytes
  | .integer v => intToBytes v
  | .decimal neg mag => marshalDecimal neg mag
  | .str s => quoteGo s
  | .token s => s
  | .byteSeq b => 58 :: base64Encode b ++ [58]
  | .boolean b => if b then [63, 49] else [63, 48]
  | .date v => 64 :: intToBytes v
  | .displayStr s => displayEncode s

/-- Model of `Parameters.MarshalSFV`: for each key in order `;`, a space, the key,
and `=` plus the bare encoding unless the value is Boolean true
(bare-key form). -/
def marshalParams (ps : Params) : Bytes :=
  ps.flatMap fun kv =>
    [59, 32] ++ kv.1 ++
      (match kv.2 with
       | .boolean true => []
       | v => 61 :: v.marshalSFV)

/-- Model of `fullItem.MarshalSFV`: bare encoding plus parameters encoding. -/
def marshalItem (it : Item) : Bytes :=
  it.bare.marshalSFV ++ marshalParams it.params

/-- Model of `InnerList.MarshalSFV`: `(`, the space-joined item encodings, `)`,
plus the inner list's parameters. -/
def marshalInner (il : InnerList) : Bytes :=
  40 :: List.intercalate [32] (il.values.map marshalItem) ++ [41] ++ marshalParams il.params

/-- Model of `List.MarshalSFV`: comma-space-joined member encodings (an empty
list marshals to no bytes). -/
def marshalList (l : List Member) : Bytes :=
  List.intercalate [44, 32]
    (l.map fun m =>
      match m with
      | .item it => marshalItem it
      | .inner il => marshalInner il)

/-- The bare-key test of `Dictionary.MarshalSFV`: an `Item` or `BareItem`
value of Boolean type whose value is `true`. -/
def dictValIsBareTrue : DictVal → Bool
  | .item it => match it.bare with | .boolean true => true | _ => false
  | .bare (.boolean true) => true
  | _ => false

/-- One `key[=value]` part of `Dictionary.MarshalSFV`: a bare key emits
only the item's parameters (a bare Boolean carries none); otherwise `=`
and the member encoding (a `BareItem` is marshaled via `ToItem()`, i.e.
with empty parameters). -/
def marshalDictPart (k : Bytes) (v : DictVal) : Bytes :=
  k ++
    (if dictValIsBareTrue v then
      match v with
      | .item it => marshalParams it.params
      | _ => []
    else
      61 ::
        (match v with
         | .item it => marshalItem it
         | .bare b => b.marshalSFV
         | .inner il => marshalInner il))

/-- Model of `Dictionary.MarshalSFV`: comma-space-joined parts, iterating the
(possibly duplicated) key list and looking each key up in the value
map; a key missing from the map is skipped. -/
def marshalDict (d : Dict) : Bytes :=
  List.intercalate [44, 32]
    (d.keys.filterMap fun k => (alistGet d.values k).map fun v => marshalDictPart k v)

/-- Model of `Marshal` on a value returned by `Parse` (dispatches to the
`MarshalSFV` of `*List` or `*Dictionary`). -/
def Marshal : TopValue → Bytes
  | .list l => marshalList l
  | .dict d => marshalDict d

/-- Model of `bytes.ReplaceAll(data, []byte("; "), new)`: left-to-right,
non-overlapping replacement of the two-byte pattern `;` `space`. -/
def replaceSemiSpace (new : Bytes) : Bytes → Bytes
  | [] => []
  | 59 :: 32 :: rest => new ++ replaceSemiSpace new rest
  | c :: rest => c :: replaceSemiSpace new rest

/-- Model of `Encoder.postProcessParameters`: spacing `" "` leaves the buffer
unchanged; spacing `""` replaces every `"; "` by `";"`; any other
spacing replaces every `"; "` by `";" + spacing`. -/
def postProcessParameters (spacing : Bytes) (data : Bytes) : Bytes :=
  if spacing = [32] then data
  else if spacing = [] then replaceSemiSpace [59] data
  else replaceSemiSpace (59 :: spacing) data

/-- Model of `Encoder.Encode` on an already-parsed value: `MarshalSFV` then the
spacing post-processing. -/
def Encode (spacing : Bytes) (v : TopValue) : Bytes :=
  postProcessParameters spacing (Marshal v)

/-- Model of `maxSFVInteger` of `sfv.go` (RFC 9651 Section 3.3.1). -/
def maxSFVInteger : Int := 999999999999999

/-- The signed-integer branch of `valueToSFV`: a host integer whose
value exceeds the 15-digit bound fails to marshal; otherwise it becomes
an Integer bare item. -/
def intValueToSFV (v : Int) : Option BareItem :=
  if v > maxSFVInteger ∨ v < -maxSFVInteger then none
  else some (.integer v)

/-! ## Specification-side definitions

These definitions follow the spec's wording (not the source); the
theorems below compare them with the source-derived definitions. -/

/-- The spec's description of the decimal fraction encoding: the exactly
3 fractional digits with trailing zeros stripped, but at least one digit
kept. -/
def specDecimalFrac (k : Nat) : Bytes :=
  if k % 10 ≠ 0 then pad3 k
  else if k / 10 % 10 ≠ 0 then [48 + k / 100, 48 + k / 10 % 10]
  else if k / 100 ≠ 0 then [48 + k / 100]
  else [48]

/-- The spec's description of string escaping: backslash-escapes applied
only to `"` and `\`, every other stored character verbatim. -/
def escapeQuoteBackslash (c : Nat) : Bytes :=
  if c = 34 ∨ c = 92 then [92, c] else [c]

/-- Map lookup `p.Values[key]` on the parameters model. -/
def paramsGet (p : Params) (k : Bytes) : Option BareItem :=
  (p.find? fun kv => kv.1 = k).map Prod.snd

/-! ## Helper lemmas -/

theorem stripWhitespace_eq_nil (l : Bytes) (h : ∀ c ∈ l, isSpaceByte c) :
    stripWhitespace l = [] := by
  simp [stripWhitespace, List.dropWhile_eq_nil_iff]
  exact fun c hc => h c hc

theorem stripWhitespace_append (ws l : Bytes) (h : ∀ c ∈ ws, isSpaceByte c) :
    stripWhitespace (ws ++ l) = stripWhitespace l := by
  induction ws with
  | nil => rfl
  | cons c ws ih =>
    simp only [List.cons_append, stripWhitespace, List.dropWhile_cons,
      h c (List.mem_cons_self c ws)]
    exact ih fun x hx => h x (List.mem_cons_of_mem c hx)

theorem stripWhitespace_cons_of_not (c : Nat) (l : Bytes) (h : ¬isSpaceByte c) :
    stripWhitespace (c :: l) = c :: l := by
  simp [stripWhitespace, List.dropWhile_cons, h]

theorem isDigit_bounds {c : Nat} (h : isDigit c) : 48 ≤ c ∧ c ≤ 57 := by
  simp [isDigit] at h; omega

theorem isDigit_not_space {c : Nat} (h : isDigit c) : ¬isSpaceByte c = true := by
  have := isDigit_bounds h
  simp [isSpaceByte]; omega

theorem numLoop_nil (sb : Bytes) (dec : Bool) : numLoop sb dec [] = some (sb, dec, []) := rfl

theorem numLoop_digits (ds : Bytes) :
    ∀ (sb : Bytes) (dec : Bool) (rest : Bytes),
      (∀ c ∈ ds, isDigit c) → sb ≠ [] →
      numLoop sb dec (ds ++ rest) = numLoop (sb ++ ds) dec rest := by
  induction ds with
  | nil => intro sb dec rest _ _; simp
  | cons c ds ih =>
    intro sb dec rest hd hsb
    have hc := isDigit_bounds (hd c (List.mem_cons_self c ds))
    have h46 : ¬c = 46 := by omega
    have hdig : isDigit c = true := hd c (List.mem_cons_self c ds)
    simp only [List.cons_append, numLoop, hsb, false_and, if_false, h46, hdig,
      not_true_eq_false, if_true, if_neg, List.append_eq]
    rw [ih (sb ++ [c]) dec rest (fun x hx => hd x (List.mem_cons_of_mem c hx))
      (by simp)]
    simp

theorem numLoop_digits_start (ds rest : Bytes) (hd : ∀ c ∈ ds, isDigit c)
    (hne : ds ≠ []) :
    numLoop [] false (ds ++ rest) = numLoop ds false rest := by
  obtain ⟨d, ds', rfl⟩ : ∃ d ds', ds = d :: ds' := by
    cases ds with
    | nil => exact absurd rfl hne
    | cons d ds' => exact ⟨d, ds', rfl⟩
  have hc := isDigit_bounds (hd d (List.mem_cons_self d ds'))
  have hdig : isDigit d = true := hd d (List.mem_cons_self d ds')
  simp only [List.cons_append, numLoop, hdig, not_true_eq_false, and_false, if_false,
    if_neg (by omega : ¬d = 46), List.append_eq, List.nil_append]
  rw [numLoop_digits ds' [d] false rest (fun x hx => hd x (List.mem_cons_of_mem d hx))
    (by simp)]
  simp

theorem memberSep_trailing_comma (ws1 ws2 : Bytes)
    (h1 : ∀ c ∈ ws1, isSpaceByte c) (h2 : ∀ c ∈ ws2, isSpaceByte c) :
    memberSep (ws1 ++ 44 :: ws2) = .fail := by
  have e1 : stripWhitespace (ws1 ++ 44 :: ws2) = 44 :: ws2 := by
    rw [stripWhitespace_append _ _ h1,
      stripWhitespace_cons_of_not 44 ws2 (by decide)]
  simp [memberSep, e1, stripWhitespace_eq_nil ws2 h2]

theorem utf8ChunksAux_ascii (s : Bytes) :
    ∀ fuel, s.length ≤ fuel → (∀ c ∈ s, c < 128) →
      utf8ChunksAux fuel s = s.map fun c => (some c, [c]) := by
  induction s with
  | nil => intro fuel _ _; cases fuel <;> rfl
  | cons c s ih =>
    intro fuel hf hc
    obtain ⟨f, rfl⟩ : ∃ f, fuel = f + 1 := ⟨fuel - 1, by simp at hf; omega⟩
    have hcc : c < 128 := hc c (List.mem_cons_self c s)
    simp only [utf8ChunksAux, if_pos hcc, List.map_cons]
    rw [ih f (by simp at hf; omega) (fun x hx => hc x (List.mem_cons_of_mem c hx))]

theorem getLastD_append_singleton (l : Bytes) (a d : Nat) :
    (l ++ [a]).getLastD d = a := by
  induction l with
  | nil => rfl
  | cons c l ih =>
    cases l with
    | nil => rfl
    | cons c2 l2 => simpa using ih

theorem getLastD_append (l m : Bytes) (d : Nat) (h : m ≠ []) :
    (l ++ m).getLastD d = m.getLastD d := by
  rw [List.getLastD_eq_getLast?, List.getLastD_eq_getLast?,
    List.getLast?_append_of_ne_nil l h]

theorem getLastD_digits (fp : Bytes) (h : ∀ c ∈ fp, isDigit c) (hne : fp ≠ [])
    (d : Nat) : 48 ≤ fp.getLastD d ∧ fp.getLastD d ≤ 57 := by
  induction fp generalizing d with
  | nil => exact absurd rfl hne
  | cons c fp ih =>
    cases fp with
    | nil =>
      simp only [List.getLastD_cons, List.getLastD_nil]
      exact isDigit_bounds (h c (List.mem_cons_self c []))
    | cons c2 fp2 =>
      rw [List.getLastD_cons]
      exact ih (fun x hx => h x (List.mem_cons_of_mem c hx)) (by simp) c

theorem indexOf_digits_dot (ds fp : Bytes) (h : ∀ c ∈ ds, isDigit c) :
    (ds ++ 46 :: fp).indexOf 46 = ds.length := by
  induction ds with
  | nil => simp [List.indexOf_cons]
  | cons c ds ih =>
    have hc := isDigit_bounds (h c (List.mem_cons_self c ds))
    simp only [List.cons_append, List.indexOf_cons,
      show (c == 46) = false by simp; omega, cond_false, List.length_cons]
    rw [ih (fun x hx => h x (List.mem_cons_of_mem c hx))]

theorem parseDecimal_unsigned (ds rest : Bytes) (hd : ∀ c ∈ ds, isDigit c)
    (hne : ds ≠ []) :
    parseDecimal (ds ++ rest) = numFinish false (numLoop ds false rest) := by
  obtain ⟨d, ds', rfl⟩ : ∃ d ds', ds = d :: ds' := by
    cases ds with
    | nil => exact absurd rfl hne
    | cons d ds' => exact ⟨d, ds', rfl⟩
  have hc := isDigit_bounds (hd d (List.mem_cons_self d ds'))
  simp only [parseDecimal, List.cons_append, List.headD_cons]
  rw [decide_eq_false (by omega : ¬d = 45)]
  simp only [Bool.false_eq_true, if_false,
    List.cons_append, if_neg (by simp : ¬(d :: (ds' ++ rest)) = [])]
  rw [show d :: (ds' ++ rest) = (d :: ds') ++ rest by simp]
  rw [numLoop_digits_start (d :: ds') rest hd hne]

theorem numLoop_enter_dot (ds rest : Bytes) (hne : ds ≠ []) (h12 : ds.length ≤ 12) :
    numLoop ds false (46 :: rest) = numLoop (ds ++ [46]) true rest := by
  simp [numLoop, hne, h12, Nat.not_lt.mpr h12]

theorem numLoop_dot_overflow (ds rest : Bytes) (hne : ds ≠ []) (h13 : 13 ≤ ds.length) :
    numLoop ds false (46 :: rest) = none := by
  simp [numLoop, hne]
  omega

theorem numLoop_second_dot (sb rest : Bytes) (hne : sb ≠ []) :
    numLoop sb true (46 :: rest) = some (sb, true, 46 :: rest) := by
  simp [numLoop, hne]

theorem parseDecimal_long_integer (ds : Bytes) (hd : ∀ c ∈ ds, isDigit c)
    (hlen : 16 ≤ ds.length) : parseDecimal ds = none := by
  have hne : ds ≠ [] := by cases ds <;> simp_all
  rw [show ds = ds ++ [] by simp, parseDecimal_unsigned ds [] hd hne,
    numLoop_nil]
  simp [numFinish]
  omega

theorem parseDecimal_dot_overflow (ip rest : Bytes) (hd : ∀ c ∈ ip, isDigit c)
    (h13 : 13 ≤ ip.length) : parseDecimal (ip ++ (46 :: rest)) = none := by
  have hne : ip ≠ [] := by cases ip <;> simp_all
  rw [parseDecimal_unsigned ip (46 :: rest) hd hne,
    numLoop_dot_overflow ip rest hne h13]
  rfl

theorem parseDecimal_trailing_dot (ip : Bytes) (hd : ∀ c ∈ ip, isDigit c)
    (hne : ip ≠ []) : parseDecimal (ip ++ [46]) = none := by
  by_cases h12 : ip.length ≤ 12
  · rw [show ip ++ [46] = ip ++ (46 :: []) from rfl,
      parseDecimal_unsigned ip (46 :: []) hd hne,
      numLoop_enter_dot ip [] hne h12, numLoop_nil]
    have hlen : ¬((ip ++ [46]).length > 16) := by simp; omega
    have hgl : (ip ++ [46]).getLastD 0 = 46 := getLastD_append_singleton ip 46 0
    simp [numFinish, hlen, hgl]
  · exact parseDecimal_dot_overflow ip [] hd (by omega)

theorem parseDecimal_frac (ip fp tail2 : Bytes) (hip : ∀ c ∈ ip, isDigit c)
    (hfp : ∀ c ∈ fp, isDigit c) (hne : ip ≠ [])
    (h12 : ip.length ≤ 12) (htail : tail2 = [] ∨ ∃ t, tail2 = 46 :: t) :
    parseDecimal (ip ++ (46 :: (fp ++ tail2))) =
      numFinish false (some (ip ++ 46 :: fp, true, tail2)) := by
  rw [parseDecimal_unsigned ip (46 :: (fp ++ tail2)) hip hne,
    numLoop_enter_dot ip (fp ++ tail2) hne h12,
    numLoop_digits fp (ip ++ [46]) true tail2 hfp (by simp)]
  have hsb : ip ++ [46] ++ fp = ip ++ 46 :: fp := by simp
  rw [hsb]
  rcases htail with rfl | ⟨t, rfl⟩
  · rw [numLoop_nil]
  · rw [numLoop_second_dot _ t (by simp [hne])]

theorem parseDecimal_second_dot_ends (ip fp t : Bytes) (hip : ∀ c ∈ ip, isDigit c)
    (hfp : ∀ c ∈ fp, isDigit c) (hne : ip ≠ []) (hfne : fp ≠ [])
    (h12 : ip.length ≤ 12) (h3 : fp.length ≤ 3) :
    parseDecimal (ip ++ (46 :: (fp ++ (46 :: t)))) =
      some (.decimal false
        (natFromDigits ip * 1000 + natFromDigits fp * 10 ^ (3 - fp.length)),
        46 :: t) := by
  rw [parseDecimal_frac ip fp (46 :: t) hip hfp hne h12 (Or.inr ⟨t, rfl⟩)]
  have hlen : ¬((ip ++ 46 :: fp).length > 16) := by simp; omega
  have hgd := getLastD_digits fp hfp hfne 46
  have hgl46 : ¬((ip ++ 46 :: fp).getLastD 0 = 46) := by
    rw [getLastD_append ip (46 :: fp) 0 (by simp), List.getLastD_cons]
    omega
  have hidx : (ip ++ 46 :: fp).indexOf 46 = ip.length := indexOf_digits_dot ip fp hip
  have hfrac : ¬((ip ++ 46 :: fp).length - (ip ++ 46 :: fp).indexOf 46 > 4) := by
    rw [hidx]; simp; omega
  have htake : (ip ++ 46 :: fp).take ((ip ++ 46 :: fp).indexOf 46) = ip := by
    rw [hidx]; exact List.take_left ip (46 :: fp)
  have hdrop : (ip ++ 46 :: fp).drop ((ip ++ 46 :: fp).indexOf 46 + 1) = fp := by
    rw [hidx, show ip ++ 46 :: fp = (ip ++ [46]) ++ fp by simp,
      show ip.length + 1 = (ip ++ [46]).length by simp]
    exact List.drop_left _ _
  simp only [numFinish, if_pos rfl, if_neg hlen, if_neg hgl46, if_neg hfrac,
    decimalMagOf, htake, hdrop]
  simp

theorem parseDecimal_literal_too_long (ip fp : Bytes) (hip : ∀ c ∈ ip, isDigit c)
    (hfp : ∀ c ∈ fp, isDigit c) (hne : ip ≠ [])
    (h17 : 17 ≤ ip.length + 1 + fp.length) :
    parseDecimal (ip ++ (46 :: fp)) = none := by
  by_cases h12 : ip.length ≤ 12
  · rw [show ip ++ (46 :: fp) = ip ++ (46 :: (fp ++ [])) by simp,
      parseDecimal_frac ip fp [] hip hfp hne h12 (Or.inl rfl)]
    have hlen : (ip ++ 46 :: fp).length > 16 := by simp; omega
    simp only [numFinish, if_pos rfl, if_pos hlen]
    simp
  · exact parseDecimal_dot_overflow ip fp hip (by omega)

theorem parseDecimal_frac_overflow (ip fp : Bytes) (hip : ∀ c ∈ ip, isDigit c)
    (hfp : ∀ c ∈ fp, isDigit c) (hne : ip ≠ []) (h4 : 4 ≤ fp.length) :
    parseDecimal (ip ++ (46 :: fp)) = none := by
  by_cases h12 : ip.length ≤ 12
  · rw [show ip ++ (46 :: fp) = ip ++ (46 :: (fp ++ [])) by simp,
      parseDecimal_frac ip fp [] hip hfp hne h12 (Or.inl rfl)]
    by_cases hlen : (ip ++ 46 :: fp).length > 16
    · simp only [numFinish, if_pos rfl, if_pos hlen]
      simp
    · have hfne : fp ≠ [] := by cases fp <;> simp_all
      have hgd := getLastD_digits fp hfp hfne 46
      have hgl46 : ¬((ip ++ 46 :: fp).getLastD 0 = 46) := by
        rw [getLastD_append ip (46 :: fp) 0 (by simp), List.getLastD_cons]
        omega
      have hidx : (ip ++ 46 :: fp).indexOf 46 = ip.length :=
        indexOf_digits_dot ip fp hip
      have hfrac : (ip ++ 46 :: fp).length - (ip ++ 46 :: fp).indexOf 46 > 4 := by
        rw [hidx]; simp; omega
      simp only [numFinish, if_pos rfl, if_neg hlen, if_neg hgl46, if_pos hfrac]
      simp
  · exact parseDecimal_dot_overflow ip fp hip (by omega)

theorem trimRightZeros_append_last (P : Bytes) (x : Nat) (h : ¬x = 48) :
    trimRightZeros (P ++ [x]) = P ++ [x] := by
  simp [trimRightZeros, List.reverse_append, List.dropWhile_cons, h]

theorem trimRightZeros_append_zero (P : Bytes) :
    trimRightZeros (P ++ [48]) = trimRightZeros P := by
  simp [trimRightZeros, List.reverse_append, List.dropWhile_cons]

theorem marshalDecimal_spec (neg : Bool) (mag : Nat) :
    marshalDecimal neg mag =
      ((if neg then [45] else []) ++ natDigits (mag / 1000) ++ [46]) ++
        specDecimalFrac (mag % 1000) := by
  set S : Bytes := if neg then [45] else [] with hS
  set D : Bytes := natDigits (mag / 1000) with hD
  set P : Bytes := S ++ D ++ [46] with hP
  have hfmt : formatFixed3 neg mag = P ++ pad3 (mag % 1000) := by
    simp [formatFixed3, hP, hS, hD]
  set k := mag % 1000 with hk
  have hPlast : P.getLastD 0 = 46 := by
    rw [hP, show S ++ D ++ [46] = (S ++ D) ++ [46] by simp]
    exact getLastD_append_singleton (S ++ D) 46 0
  have hPtrim : trimRightZeros P = P := by
    rw [hP, show S ++ D ++ [46] = (S ++ D) ++ [46] by simp,
      trimRightZeros_append_last (S ++ D) 46 (by omega)]
  unfold marshalDecimal restoreDotZero
  rw [hfmt]
  by_cases hc : k % 10 = 0
  · by_cases hb : k / 10 % 10 = 0
    · by_cases ha : k / 100 = 0
      · have hp : pad3 k = [48, 48, 48] := by simp [pad3, hc, hb, ha]
        rw [hp, show P ++ [48, 48, 48] = ((P ++ [48]) ++ [48]) ++ [48] by simp,
          trimRightZeros_append_zero, trimRightZeros_append_zero,
          trimRightZeros_append_zero, hPtrim, if_pos hPlast]
        simp [specDecimalFrac, hc, hb, ha]
      · have hp : pad3 k = [48 + k / 100, 48, 48] := by simp [pad3, hc, hb]
        rw [hp,
          show P ++ [48 + k / 100, 48, 48] = ((P ++ [48 + k / 100]) ++ [48]) ++ [48] by simp,
          trimRightZeros_append_zero, trimRightZeros_append_zero,
          trimRightZeros_append_last _ _ (by omega),
          getLastD_append_singleton P (48 + k / 100) 0, if_neg (by omega)]
        simp [specDecimalFrac, hc, hb, ha]
    · have hp : pad3 k = [48 + k / 100, 48 + k / 10 % 10, 48] := by simp [pad3, hc]
      rw [hp,
        show P ++ [48 + k / 100, 48 + k / 10 % 10, 48] =
          ((P ++ [48 + k / 100]) ++ [48 + k / 10 % 10]) ++ [48] by simp,
        trimRightZeros_append_zero,
        trimRightZeros_append_last _ _ (by omega),
        getLastD_append_singleton _ (48 + k / 10 % 10) 0, if_neg (by omega)]
      simp [specDecimalFrac, hc, hb]
  · rw [show P ++ pad3 k = (P ++ [48 + k / 100, 48 + k / 10 % 10]) ++ [48 + k % 10] by
        simp [pad3],
      trimRightZeros_append_last _ _ (by omega),
      getLastD_append_singleton _ (48 + k % 10) 0, if_neg (by omega)]
    simp [specDecimalFrac, hc, pad3]

theorem replace_map_fst {β : Type} (p : List (Bytes × β)) (k : Bytes) (v : β) :
    ((p.map fun kv => if kv.1 = k then (k, v) else kv).map Prod.fst) =
      p.map Prod.fst := by
  induction p with
  | nil => rfl
  | cons hd tl ih =>
    by_cases hkv : hd.1 = k <;> simp [hkv, ih]

theorem find?_replace {β : Type} (p : List (Bytes × β)) (k : Bytes) (v : β)
    (h : k ∈ p.map Prod.fst) :
    ((p.map fun kv => if kv.1 = k then (k, v) else kv).find? fun kv => kv.1 = k) =
      some (k, v) := by
  induction p with
  | nil => simp at h
  | cons hd tl ih =>
    by_cases hkv : hd.1 = k
    · simp [hkv, List.find?_cons]
    · have h' : k ∈ tl.map Prod.fst := by
        rcases List.mem_map.mp h with ⟨x, hx, he⟩
        rcases List.mem_cons.mp hx with rfl | hx2
        · exact absurd he hkv
        · exact List.mem_map.mpr ⟨x, hx2, he⟩
      simp only [List.map_cons, if_neg hkv, List.find?_cons]
      rw [show (decide (hd.1 = k)) = false from decide_eq_false hkv]
      exact ih h'

theorem find?_append_self {β : Type} (p : List (Bytes × β)) (k : Bytes) (v : β)
    (h : ¬k ∈ p.map Prod.fst) :
    ((p ++ [(k, v)]).find? fun kv => kv.1 = k) = some (k, v) := by
  induction p with
  | nil => simp
  | cons hd tl ih =>
    have hkv : ¬hd.1 = k := fun he => h (by simp [he])
    simp only [List.cons_append, List.find?_cons]
    rw [show (decide (hd.1 = k)) = false from decide_eq_false hkv]
    exact ih fun hm => h (by
      simp only [List.map_cons, List.mem_cons]
      exact Or.inr hm)

theorem paramsSet_keys_of_mem (p : Params) (k : Bytes) (v : BareItem)
    (h : k ∈ p.map Prod.fst) :
    (paramsSet p k v).map Prod.fst = p.map Prod.fst := by
  unfold paramsSet
  rw [if_pos (by simpa using h), replace_map_fst]

theorem paramsGet_paramsSet (p : Params) (k : Bytes) (v : BareItem) :
    paramsGet (paramsSet p k v) k = some v := by
  unfold paramsGet paramsSet
  by_cases h : k ∈ p.map Prod.fst
  · rw [if_pos (by simpa using h), find?_replace p k v h]
    rfl
  · rw [if_neg (by simpa using h), find?_append_self p k v h]
    rfl

theorem alistGet_alistSet (m : List (Bytes × DictVal)) (k : Bytes) (v : DictVal) :
    alistGet (alistSet m k v) k = some v := by
  unfold alistGet alistSet
  by_cases h : k ∈ m.map Prod.fst
  · rw [if_pos (by simpa using h), find?_replace m k v h]
    rfl
  · rw [if_neg (by simpa using h), find?_append_self m k v h]
    rfl

theorem flatMap_chunks_printable (s : Bytes) (h : ∀ c ∈ s, 32 ≤ c ∧ c ≤ 126) :
    ((s.map fun c => ((some c : Option Nat), ([c] : Bytes))).flatMap fun ch =>
        match ch.1 with
        | some r => quoteEscapeRune r
        | none => goEscapeByte (ch.2.headD 0)) =
      s.flatMap escapeQuoteBackslash := by
  induction s with
  | nil => rfl
  | cons c tl ih =>
    have hc := h c (List.mem_cons_self c tl)
    simp only [List.map_cons, List.flatMap_cons]
    rw [ih fun x hx => h x (List.mem_cons_of_mem c hx)]
    congr 1
    by_cases h34 : c = 34 ∨ c = 92
    · simp [quoteEscapeRune, escapeQuoteBackslash, h34]
    · have hpr : isPrintGo c = true := by simp [isPrintGo]; omega
      simp [quoteEscapeRune, escapeQuoteBackslash, h34, hpr, utf8EncodeRune,
        (by omega : c < 128)]

theorem quoteGo_printable (s : Bytes) (h : ∀ c ∈ s, 32 ≤ c ∧ c ≤ 126) :
    quoteGo s = 34 :: (s.flatMap escapeQuoteBackslash ++ [34]) := by
  unfold quoteGo utf8Chunks
  rw [utf8ChunksAux_ascii s s.length le_rfl (fun c hc => by have := h c hc; omega),
    flatMap_chunks_printable s h]
  simp

/-! ## Claim theorems -/

/-- C1: the spec claims that for every parseable input in canonical form
(an output of the canonical encoder), `Marshal(Parse(s))` returns exactly
`s`.  The bytes `%"","a"` are canonical — they are
`Marshal(Parse("%\"%22,%22a\""))` — and `Parse` accepts them, yet
marshaling that parse yields the different bytes `%"", "a"`: the
display-string serializer emits a stored `"` byte verbatim (its
pass-through test only excludes `%`), so the canonical bytes re-parse as
an empty display string followed by the string `"a"`. -/
theorem C1_canonical_roundtrip_broken :
    Parse (bytesOfString "%\"%22,%22a\"") =
      some (.list [.item ⟨.displayStr [34, 44, 34, 97], []⟩]) ∧
    Marshal (.list [.item ⟨.displayStr [34, 44, 34, 97], []⟩]) =
      bytesOfString "%\"\",\"a\"" ∧
    Parse (bytesOfString "%\"\",\"a\"") =
      some (.list [.item ⟨.displayStr [], []⟩, .item ⟨.str [97], []⟩]) ∧
    Marshal (.list [.item ⟨.displayStr [], []⟩, .item ⟨.str [97], []⟩]) =
      bytesOfString "%\"\", \"a\"" ∧
    bytesOfString "%\"\", \"a\"" ≠ bytesOfString "%\"\",\"a\"" := by decide

/-- C2: the spec claims `Marshal(Parse(Marshal(Parse(s)))) ==
Marshal(Parse(s))` for every parseable `s`.  For `s = %"%22,%22a"` every
parse succeeds, but the first pass yields `%"","a"` and the second
`%"", "a"`: the display-string serializer emits a stored `"` byte
verbatim, so the first pass's output re-parses as two items. -/
theorem C2_idempotence_broken :
    (Parse (bytesOfString "%\"%22,%22a\"")).map Marshal =
      some (bytesOfString "%\"\",\"a\"") ∧
    (Parse (bytesOfString "%\"\",\"a\"")).map Marshal =
      some (bytesOfString "%\"\", \"a\"") ∧
    bytesOfString "%\"\", \"a\"" ≠ bytesOfString "%\"\",\"a\"" := by decide

/-- C3: the 15-digit literal `999999999999999` parses and round-trips to
the same bytes; every all-digit literal of 16 or more digits fails the
numeric parser (`1000000000000000` in particular fails `Parse`); and the
host-integer conversion rejects any value whose absolute value exceeds
`999999999999999`. -/
theorem C3_integer_bounds :
    (Parse (bytesOfString "999999999999999") =
        some (.list [.item ⟨.integer 999999999999999, []⟩]) ∧
      (Parse (bytesOfString "999999999999999")).map Marshal =
        some (bytesOfString "999999999999999")) ∧
    Parse (bytesOfString "1000000000000000") = none ∧
    (∀ ds : Bytes, (∀ c ∈ ds, isDigit c) → 16 ≤ ds.length →
      parseDecimal ds = none) ∧
    (∀ v : Int, maxSFVInteger < v.natAbs → intValueToSFV v = none) := by
  refine ⟨by decide, by decide, parseDecimal_long_integer, ?_⟩
  intro v hv
  unfold intValueToSFV
  rw [if_pos]
  simp only [maxSFVInteger] at hv ⊢
  omega

/-- Witness for C3 at concrete inputs: a 16-digit literal fails to parse
and the host integer `10^15` fails to marshal. -/
theorem C3_integer_bounds_witness :
    parseDecimal [49, 50, 51, 52, 53, 54, 55, 56, 57, 48, 49, 50, 51, 52, 53, 54] =
      none ∧
    intValueToSFV 1000000000000000 = none := by
  obtain ⟨_, _, h3, h4⟩ := C3_integer_bounds
  exact ⟨h3 _ (by decide) (by decide), h4 _ (by decide)⟩

/-- C4: the decimal encoder (format with exactly 3 fractional digits,
strip trailing zeros, restore a `0` after a trailing `.`) produces the
sign, the integer digits, `.`, and the fraction with trailing zeros
removed but at least one digit kept; in particular the value 3.14
(3140 thousandths) encodes as `3.14` and 0.0 as `0.0`. -/
theorem C4_decimal_formatting :
    (∀ (neg : Bool) (mag : Nat),
        marshalDecimal neg mag =
          ((if neg then [45] else []) ++ natDigits (mag / 1000) ++ [46]) ++
            specDecimalFrac (mag % 1000)) ∧
    BareItem.marshalSFV (.decimal false 3140) = bytesOfString "3.14" ∧
    BareItem.marshalSFV (.decimal false 0) = bytesOfString "0.0" :=
  ⟨marshalDecimal_spec, by decide, by decide⟩

/-- C5: in the numeric parser — a second `.` after decimal mode has been
entered ends the literal (the parse succeeds and leaves the `.` and what
follows unconsumed); a literal whose last character is `.` fails; more
than 12 accumulated digits when the `.` is seen fails; a decimal literal
longer than 16 characters fails; and more than 3 digits after the `.`
fails. -/
theorem C5_numeric_edge_cases :
    (∀ ip fp t : Bytes, (∀ c ∈ ip, isDigit c) → (∀ c ∈ fp, isDigit c) →
        ip ≠ [] → fp ≠ [] → ip.length ≤ 12 → fp.length ≤ 3 →
        parseDecimal (ip ++ (46 :: (fp ++ (46 :: t)))) =
          some (.decimal false
            (natFromDigits ip * 1000 + natFromDigits fp * 10 ^ (3 - fp.length)),
            46 :: t)) ∧
    (∀ ip : Bytes, (∀ c ∈ ip, isDigit c) → ip ≠ [] →
        parseDecimal (ip ++ [46]) = none) ∧
    (∀ ip rest : Bytes, (∀ c ∈ ip, isDigit c) → 13 ≤ ip.length →
        parseDecimal (ip ++ (46 :: rest)) = none) ∧
    (∀ ip fp : Bytes, (∀ c ∈ ip, isDigit c) → (∀ c ∈ fp, isDigit c) → ip ≠ [] →
        17 ≤ ip.length + 1 + fp.length → parseDecimal (ip ++ (46 :: fp)) = none) ∧
    (∀ ip fp : Bytes, (∀ c ∈ ip, isDigit c) → (∀ c ∈ fp, isDigit c) → ip ≠ [] →
        4 ≤ fp.length → parseDecimal (ip ++ (46 :: fp)) = none) :=
  ⟨parseDecimal_second_dot_ends, parseDecimal_trailing_dot,
    parseDecimal_dot_overflow, parseDecimal_literal_too_long,
    parseDecimal_frac_overflow⟩

/-- Witness for C5 at concrete inputs: `1.2.3` parses as 1.2 with `.3`
left over; `1.`, a 13-digit integer part, a 17-character literal, and 4
fractional digits all fail. -/
theorem C5_numeric_edge_cases_witness :
    parseDecimal [49, 46, 50, 46, 51] =
      some (.decimal false 1200, [46, 51]) ∧
    parseDecimal [49, 46] = none ∧
    parseDecimal [49, 50, 51, 52, 53, 54, 55, 56, 57, 48, 49, 50, 51, 46, 52] =
      none ∧
    parseDecimal [49, 50, 51, 52, 53, 54, 55, 56, 57, 48, 49, 50, 46, 51, 52, 53, 54] =
      none ∧
    parseDecimal [49, 46, 50, 51, 52, 53] = none := by
  obtain ⟨h1, h2, h3, h4, h5⟩ := C5_numeric_edge_cases
  refine ⟨?_, ?_, ?_, ?_, ?_⟩
  · exact h1 [49] [50] [51] (by decide) (by decide) (by decide) (by decide)
      (by decide) (by decide)
  · exact h2 [49] (by decide) (by decide)
  · exact h3 [49, 50, 51, 52, 53, 54, 55, 56, 57, 48, 49, 50, 51] [52]
      (by decide) (by decide)
  · exact h4 [49, 50, 51, 52, 53, 54, 55, 56, 57, 48, 49, 50] [51, 52, 53, 54]
      (by decide) (by decide) (by decide) (by decide)
  · exact h5 [49] [50, 51, 52, 53] (by decide) (by decide) (by decide) (by decide)

/-- C6: parsing `;a=1;a=2` yields exactly one parameter `a` with value
Integer 2, and in general re-setting an existing parameter key keeps the
key list (iteration order) unchanged while the stored value becomes the
new one. -/
theorem C6_parameter_overwrite :
    parseParameters (bytesOfString ";a=1;a=2") =
      some ([([97], .integer 2)], []) ∧
    (∀ (p : Params) (k : Bytes) (v : BareItem), k ∈ p.map Prod.fst →
        (paramsSet p k v).map Prod.fst = p.map Prod.fst) ∧
    (∀ (p : Params) (k : Bytes) (v : BareItem),
        paramsGet (paramsSet p k v) k = some v) :=
  ⟨by decide, paramsSet_keys_of_mem, paramsGet_paramsSet⟩

/-- Witness for C6 at a concrete parameter list with an existing key. -/
theorem C6_parameter_overwrite_witness :
    (paramsSet [([97], BareItem.integer 1), ([98], .boolean true)] [97]
        (.integer 2)).map Prod.fst = [[97], [98]] ∧
    paramsGet (paramsSet [([97], BareItem.integer 1)] [97] (.integer 2)) [97] =
      some (.integer 2) := by
  obtain ⟨_, h2, h3⟩ := C6_parameter_overwrite
  exact ⟨h2 _ _ _ (by decide), h3 _ _ _⟩

/-- Counterexample to C7 as stated: the stored string consisting of one
newline byte is encoded by `strconv.Quote` as `"\n"` — a backslash
escape applied to a character other than `"` and `\` — not as the
newline byte verbatim between quotes. -/
theorem C7_escape_counterexample :
    BareItem.marshalSFV (.str [10]) = [34, 92, 110, 34] ∧
    BareItem.marshalSFV (.str [10]) ≠
      34 :: (([10] : Bytes).flatMap escapeQuoteBackslash ++ [34]) := by decide

/-- C7 (amended): for every String bare item whose stored bytes are all
printable ASCII (`0x20..0x7e`) — the only strings the parser produces —
the canonical encoding is the value re-quoted with backslash escapes
applied only to `"` and `\`, every other character verbatim. -/
theorem C7_escape_printable :
    ∀ s : Bytes, (∀ c ∈ s, 32 ≤ c ∧ c ≤ 126) →
      BareItem.marshalSFV (.str s) =
        34 :: (s.flatMap escapeQuoteBackslash ++ [34]) :=
  fun s h => quoteGo_printable s h

/-- Witness for C7 (amended) at a concrete printable string. -/
theorem C7_escape_printable_witness :
    BareItem.marshalSFV (.str [97, 34, 92]) =
      34 :: (([97, 34, 92] : Bytes).flatMap escapeQuoteBackslash ++ [34]) :=
  C7_escape_printable [97, 34, 92] (by decide)

/-- C8: for every value and every spacing other than a single space,
`Encode` emits exactly the marshaled bytes with each `"; "` pair
replaced, buffer-wide, by `";"` plus the spacing; parsing
`"@method";req` and encoding with spacing `""` yields `"@method";req`,
while the default marshal yields `"@method"; req`. -/
theorem C8_encode_spacing :
    (∀ (v : TopValue) (σ : Bytes), σ ≠ [32] →
        Encode σ v = replaceSemiSpace (59 :: σ) (Marshal v)) ∧
    (Parse (bytesOfString "\"@method\";req")).map (Encode []) =
      some (bytesOfString "\"@method\";req") ∧
    (Parse (bytesOfString "\"@method\";req")).map Marshal =
      some (bytesOfString "\"@method\"; req") := by
  refine ⟨?_, by decide, by decide⟩
  intro v σ hσ
  unfold Encode postProcessParameters
  rw [if_neg hσ]
  by_cases h0 : σ = []
  · subst h0; rfl
  · rw [if_neg h0]

/-- Witness for C8 at the empty spacing. -/
theorem C8_encode_spacing_witness :
    Encode [] (.list [.item ⟨.token [97], [([98], .boolean true)]⟩]) =
      replaceSemiSpace [59]
        (Marshal (.list [.item ⟨.token [97], [([98], .boolean true)]⟩])) :=
  C8_encode_spacing.1 (.list [.item ⟨.token [97], [([98], .boolean true)]⟩]) []
    (by decide)

/-- C9: list parsing fails on a comma followed (after optional
whitespace) by end of input — the shared separator step rejects it —
while completely empty input parses to an empty List; in particular
`Parse("sugar, tea,")` fails. -/
theorem C9_trailing_comma :
    Parse (bytesOfString "sugar, tea,") = none ∧
    Parse [] = some (.list []) ∧
    (∀ ws1 ws2 : Bytes, (∀ c ∈ ws1, isSpaceByte c) → (∀ c ∈ ws2, isSpaceByte c) →
        memberSep (ws1 ++ 44 :: ws2) = .fail) :=
  ⟨by decide, by decide, memberSep_trailing_comma⟩

/-- Witness for C9 at a concrete whitespace-comma-whitespace suffix. -/
theorem C9_trailing_comma_witness : memberSep [32, 44, 32] = .fail :=
  C9_trailing_comma.2.2 [32] [32] (by decide) (by decide)

/-- C10: parsing `a=1, a=2` appends the key `a` to the ordered key list
once per occurrence while the value map keeps only the last value, so
the dictionary marshals as `a=2, a=2`; in general the parser's member
store appends the key unconditionally and overwrites the map entry. -/
theorem C10_dictionary_duplicate_keys :
    Parse (bytesOfString "a=1, a=2") =
      some (.dict ⟨[[97], [97]], [([97], .item ⟨.integer 2, []⟩)]⟩) ∧
    (Parse (bytesOfString "a=1, a=2")).map Marshal =
      some (bytesOfString "a=2, a=2") ∧
    (∀ (d : Dict) (k : Bytes) (v : DictVal), (dictAdd d k v).keys = d.keys ++ [k]) ∧
    (∀ (d : Dict) (k : Bytes) (v : DictVal),
        alistGet (dictAdd d k v).values k = some v) :=
  ⟨by decide, by decide, fun _ _ _ => rfl,
    fun d k v => alistGet_alistSet d.values k v⟩
